import Mathlib

/-
  Verification of the mempool CAT cache layer (mempool/cat/cache.go):
  the LRU transaction-key dedup cache (LRUTxCache), the eviction-history
  cache (EvictedTxCache) and the seen-transaction peer set (SeenTxSet).

  Modelling conventions:
  * `types.TxKey` is an opaque fixed-size hash compared byte-exactly; it is
    modelled as `Nat`.  Peer ids (`uint16`) are modelled as `Nat` with the
    reserved zero value kept as `0`.  `time.Time` values are only ever
    created by `time.Now().UTC()` and compared with `Before` (strict `<`),
    so they are modelled as `Nat` timestamps passed explicitly to each
    operation that reads the clock.
  * A Go `map[K]V` is modelled as an association list `List (K × V)` whose
    key set never holds duplicates (`mapSet` overwrites every entry of the
    key, `mapDelete` deletes every entry of the key, exactly as a map
    does).  Go's map iteration order is unspecified; the model iterates in
    list order, which is one admissible order, and every claim proved below
    about an iteration is insensitive to the order chosen (distinct
    timestamps, or singleton sets).
  * `container/list.List` in LRUTxCache is modelled as `List TxKey` with
    the front at the head and the back at the end.  The Go code keeps
    `cacheMap`'s key set identical to the linked list's element set at all
    times (every insertion and deletion updates both), so the model keeps
    the single list and reads membership from it.
  * Methods that mutate the receiver and return a value are modelled as
    functions returning a pair (new state, returned value).
-/

abbrev TxKey := Nat

abbrev PeerId := Nat

abbrev Timestamp := Nat

/-- Lookup in an association-list model of a Go map: the value of the first
(in a map: only) entry with the given key. -/
def mapGet {V : Type} (l : List (TxKey × V)) (k : TxKey) : Option V :=
  (l.find? (fun p => p.1 = k)).map Prod.snd

/-- `m[k] = v` on an association-list model of a Go map: overwrite the
entry with key `k` if present (a map holds at most one entry per key),
otherwise append a new entry. -/
def mapSet {V : Type} : List (TxKey × V) → TxKey → V → List (TxKey × V)
  | [], k, v => [(k, v)]
  | p :: rest, k, v =>
      if p.1 = k then (k, v) :: rest else p :: mapSet rest k v

/-- `delete(m, k)` on an association-list model of a Go map. -/
def mapDelete {V : Type} (l : List (TxKey × V)) (k : TxKey) :
    List (TxKey × V) :=
  l.filter (fun p => ¬ p.1 = k)

/-! ## LRUTxCache -/

/-- `LRUTxCache`: `staticSize` is the configured capacity (a Go `int`, so
`Int`); `list` holds the keys from least recently used (head, the Go
list's front) to most recently used (end, the Go list's back).  The Go
struct's `cacheMap` always indexes exactly the elements of `list`, so
membership is read from `list`. -/
structure LRUTxCache where
  staticSize : Int
  list : List TxKey
deriving DecidableEq

def NewLRUTxCache (cacheSize : Int) : LRUTxCache :=
  { staticSize := cacheSize, list := [] }

def LRUTxCache.Reset (c : LRUTxCache) : LRUTxCache :=
  { c with list := [] }

/-- `LRUTxCache.Push`: returns the new cache and the Go method's boolean
result (true iff the key was newly inserted).  Mirrors the source: a
capacity of 0 short-circuits to true; a present key is moved to the back
and false is returned; otherwise, at capacity the front element is
removed (`front != nil` iff the list is nonempty, and dropping the head of
an empty list is the same no-op), and the key is appended at the back. -/
def LRUTxCache.Push (c : LRUTxCache) (txKey : TxKey) : LRUTxCache × Bool :=
  if c.staticSize = 0 then (c, true)
  else if c.list.contains txKey then
    ({ c with list := (c.list.erase txKey) ++ [txKey] }, false)
  else
    let l := if (c.list.length : Int) ≥ c.staticSize then c.list.drop 1 else c.list
    ({ c with list := l ++ [txKey] }, true)

def LRUTxCache.Remove (c : LRUTxCache) (txKey : TxKey) : LRUTxCache :=
  { c with list := c.list.erase txKey }

def LRUTxCache.Has (c : LRUTxCache) (txKey : TxKey) : Bool :=
  if c.staticSize = 0 then false else c.list.contains txKey

/-! ## EvictedTxCache -/

structure EvictedTxInfo where
  timeEvicted : Timestamp
  priority : Int
  gasWanted : Int
  sender : String
  size : Int
deriving DecidableEq

/-- The five fields of `wrappedTx` that `EvictedTxCache.Push` reads
(`wtx.key`, `wtx.priority`, `wtx.gasWanted`, `wtx.sender`, `wtx.size()`). -/
structure wrappedTx where
  key : TxKey
  priority : Int
  gasWanted : Int
  sender : String
  size : Int
deriving DecidableEq

structure EvictedTxCache where
  staticSize : Int
  cache : List (TxKey × EvictedTxInfo)
deriving DecidableEq

def NewEvictedTxCache (size : Int) : EvictedTxCache :=
  { staticSize := size, cache := [] }

def EvictedTxCache.Has (c : EvictedTxCache) (txKey : TxKey) : Bool :=
  (mapGet c.cache txKey).isSome

def EvictedTxCache.Get (c : EvictedTxCache) (txKey : TxKey) :
    Option EvictedTxInfo :=
  mapGet c.cache txKey

/-- The `EvictedTxInfo` record literal that `EvictedTxCache.Push` stores:
the current time plus the four metadata fields copied from the
transaction. -/
def wrappedInfo (wtx : wrappedTx) (now : Timestamp) : EvictedTxInfo :=
  { timeEvicted := now, priority := wtx.priority, gasWanted := wtx.gasWanted,
    sender := wtx.sender, size := wtx.size }

/-- One iteration of `EvictedTxCache.Push`'s oldest-record scan: keep the
running (key, time) candidate unless the entry was evicted strictly
earlier. -/
def oldestStep (acc : TxKey × Timestamp) (p : TxKey × EvictedTxInfo) :
    TxKey × Timestamp :=
  if p.2.timeEvicted < acc.2 then (p.1, p.2.timeEvicted) else acc

/-- `EvictedTxCache.Push`: stores a fresh record for `wtx.key` stamped
`now`, then, if the size exceeds the capacity, scans all records for the
one with the earliest `timeEvicted` — the scan starts from the just-pushed
key and the current time, updating on strictly earlier timestamps — and
deletes it.  The source reads `time.Now().UTC()` once for the record and
once for the scan's start inside the same locked call; the model passes
the single instant `now` for both. -/
def EvictedTxCache.Push (c : EvictedTxCache) (wtx : wrappedTx)
    (now : Timestamp) : EvictedTxCache :=
  let cache1 := mapSet c.cache wtx.key (wrappedInfo wtx now)
  if (cache1.length : Int) > c.staticSize then
    let oldest := cache1.foldl oldestStep (wtx.key, now)
    { c with cache := mapDelete cache1 oldest.1 }
  else
    { c with cache := cache1 }

def EvictedTxCache.Pop (c : EvictedTxCache) (txKey : TxKey) :
    EvictedTxCache × Option EvictedTxInfo :=
  match mapGet c.cache txKey with
  | none => (c, none)
  | some info => ({ c with cache := mapDelete c.cache txKey }, some info)

def EvictedTxCache.Prune (c : EvictedTxCache) (limit : Timestamp) :
    EvictedTxCache :=
  { c with cache := c.cache.filter (fun p => ¬ p.2.timeEvicted < limit) }

def EvictedTxCache.Reset (c : EvictedTxCache) : EvictedTxCache :=
  { c with cache := [] }

/-! ## SeenTxSet -/

/-- `timestampedPeerSet`: the peer set `map[uint16]bool` is modelled as a
duplicate-free `List PeerId` (the set of peers mapped to `true`; the code
only ever stores `true`). -/
structure timestampedPeerSet where
  peers : List PeerId
  time : Timestamp
deriving DecidableEq

structure SeenTxSet where
  set : List (TxKey × timestampedPeerSet)
deriving DecidableEq

def NewSeenTxSet : SeenTxSet :=
  { set := [] }

/-- `SeenTxSet.Add`: the reserved peer id 0 is ignored; the first add for a
key creates a singleton record stamped `now`; later adds insert the peer
into the existing record's set (a no-op when already present) without
touching the timestamp. -/
def SeenTxSet.Add (s : SeenTxSet) (txKey : TxKey) (peer : PeerId)
    (now : Timestamp) : SeenTxSet :=
  if peer = 0 then s
  else
    match mapGet s.set txKey with
    | none => { set := mapSet s.set txKey { peers := [peer], time := now } }
    | some seenSet =>
        { set := mapSet s.set txKey
            { peers := if seenSet.peers.contains peer then seenSet.peers
                       else seenSet.peers ++ [peer],
              time := seenSet.time } }

/-- `SeenTxSet.Pop`: removes and returns one peer of the key's record (the
source takes the first peer produced by map iteration; the model takes the
list head, one admissible order).  Returns 0 when the key is absent or its
peer set is empty; the record itself is never deleted. -/
def SeenTxSet.Pop (s : SeenTxSet) (txKey : TxKey) : SeenTxSet × PeerId :=
  match mapGet s.set txKey with
  | none => (s, 0)
  | some seenSet =>
      match seenSet.peers with
      | [] => (s, 0)
      | p :: rest =>
          ({ set := mapSet s.set txKey { peers := rest, time := seenSet.time } }, p)

def SeenTxSet.RemoveKey (s : SeenTxSet) (txKey : TxKey) : SeenTxSet :=
  { set := mapDelete s.set txKey }

/-- `SeenTxSet.Remove`: no-op when the key is absent; deletes the whole
record when its peer set has exactly one member (whichever peer is named);
otherwise deletes just the named peer from the set. -/
def SeenTxSet.Remove (s : SeenTxSet) (txKey : TxKey) (peer : PeerId) :
    SeenTxSet :=
  match mapGet s.set txKey with
  | none => s
  | some entry =>
      if entry.peers.length = 1 then { set := mapDelete s.set txKey }
      else
        { set := mapSet s.set txKey
            { peers := entry.peers.filter (fun q => ¬ q = peer),
              time := entry.time } }

def SeenTxSet.Prune (s : SeenTxSet) (limit : Timestamp) : SeenTxSet :=
  { set := s.set.filter (fun p => ¬ p.2.time < limit) }

def SeenTxSet.Has (s : SeenTxSet) (txKey : TxKey) (peer : PeerId) : Bool :=
  match mapGet s.set txKey with
  | none => false
  | some seenSet => seenSet.peers.contains peer

/-- `SeenTxSet.Get`: `none` models the Go `nil` returned for an absent key;
otherwise the (copied) peer set. -/
def SeenTxSet.Get (s : SeenTxSet) (txKey : TxKey) : Option (List PeerId) :=
  match mapGet s.set txKey with
  | none => none
  | some seenSet => some seenSet.peers

def SeenTxSet.Len (s : SeenTxSet) : Nat :=
  s.set.length

def SeenTxSet.Reset (_ : SeenTxSet) : SeenTxSet :=
  { set := [] }

/-! ## Operation sequences

For claims quantifying over "any sequence of operations" we close each
structure's mutating API into an inductive of operation descriptors and a
fold applying them. -/

inductive LruOp where
  | push (txKey : TxKey)
  | remove (txKey : TxKey)
  | reset
deriving DecidableEq

def applyLruOp (c : LRUTxCache) : LruOp → LRUTxCache
  | .push k => (c.Push k).1
  | .remove k => c.Remove k
  | .reset => c.Reset

def applyLruOps (c : LRUTxCache) (ops : List LruOp) : LRUTxCache :=
  ops.foldl applyLruOp c

inductive SeenOp where
  | add (txKey : TxKey) (peer : PeerId) (now : Timestamp)
  | pop (txKey : TxKey)
  | remove (txKey : TxKey) (peer : PeerId)
  | removeKey (txKey : TxKey)
  | prune (limit : Timestamp)
  | reset
deriving DecidableEq

def applySeenOp (s : SeenTxSet) : SeenOp → SeenTxSet
  | .add k p t => s.Add k p t
  | .pop k => (s.Pop k).1
  | .remove k p => s.Remove k p
  | .removeKey k => s.RemoveKey k
  | .prune t => s.Prune t
  | .reset => s.Reset

def applySeenOps (s : SeenTxSet) (ops : List SeenOp) : SeenTxSet :=
  ops.foldl applySeenOp s

/-- Push a list of keys into an LRU cache, left to right. -/
def pushKeys (c : LRUTxCache) (ks : List TxKey) : LRUTxCache :=
  ks.foldl (fun c k => (c.Push k).1) c

/-- Push a list of (transaction, eviction-time) pairs, left to right. -/
def pushEvicted (c : EvictedTxCache) (es : List (wrappedTx × Timestamp)) :
    EvictedTxCache :=
  es.foldl (fun c e => c.Push e.1 e.2) c

/-! ## Association-list lemmas -/

theorem mapGet_nil {V : Type} (k : TxKey) :
    mapGet ([] : List (TxKey × V)) k = none := rfl

theorem mapGet_cons {V : Type} (p : TxKey × V) (l : List (TxKey × V)) (k : TxKey) :
    mapGet (p :: l) k = if p.1 = k then some p.2 else mapGet l k := by
  by_cases h : p.1 = k <;> simp [mapGet, List.find?, h]

theorem mapGet_mapSet_self {V : Type} (l : List (TxKey × V)) (k : TxKey) (v : V) :
    mapGet (mapSet l k v) k = some v := by
  induction l with
  | nil => simp [mapSet, mapGet_cons]
  | cons p rest ih =>
      by_cases h : p.1 = k <;> simp [mapSet, h, mapGet_cons, ih]

theorem mapGet_mapSet_ne {V : Type} (l : List (TxKey × V)) (k k' : TxKey) (v : V)
    (h : k' ≠ k) : mapGet (mapSet l k v) k' = mapGet l k' := by
  have hkk : ¬ k = k' := fun hh => h hh.symm
  induction l with
  | nil => simp [mapSet, mapGet_cons, mapGet_nil, hkk]
  | cons p rest ih =>
      by_cases hp : p.1 = k
      · have hp' : ¬ p.1 = k' := by rw [hp]; exact hkk
        simp [mapSet, hp, mapGet_cons, hkk, hp']
      · simp [mapSet, hp, mapGet_cons, ih]

theorem mapGet_eq_some_mem {V : Type} {l : List (TxKey × V)} {k : TxKey} {v : V}
    (h : mapGet l k = some v) : (k, v) ∈ l := by
  induction l with
  | nil => simp [mapGet_nil] at h
  | cons p rest ih =>
      rw [mapGet_cons] at h
      by_cases hp : p.1 = k
      · rw [if_pos hp] at h
        have h2 : p.2 = v := Option.some_inj.mp h
        have hpe : (k, v) = p := by
          cases p
          simp_all
        rw [hpe]
        exact List.mem_cons_self _ _
      · rw [if_neg hp] at h
        exact List.mem_cons_of_mem _ (ih h)

theorem mapGet_eq_none_iff {V : Type} (l : List (TxKey × V)) (k : TxKey) :
    mapGet l k = none ↔ k ∉ l.map Prod.fst := by
  induction l with
  | nil => simp [mapGet_nil]
  | cons p rest ih =>
      rw [mapGet_cons]
      by_cases hp : p.1 = k
      · simp [hp]
      · have hp' : ¬ k = p.1 := fun hh => hp hh.symm
        simp [hp, hp', ih]

theorem mapGet_isSome_iff {V : Type} (l : List (TxKey × V)) (k : TxKey) :
    (mapGet l k).isSome = true ↔ k ∈ l.map Prod.fst := by
  cases hm : mapGet l k with
  | none => simp [(mapGet_eq_none_iff l k).mp hm]
  | some v =>
      simp only [Option.isSome_some, true_iff]
      exact List.mem_map_of_mem Prod.fst (mapGet_eq_some_mem hm)

theorem mapGet_mapDelete_self {V : Type} (l : List (TxKey × V)) (k : TxKey) :
    mapGet (mapDelete l k) k = none := by
  rw [mapGet_eq_none_iff]
  intro hk
  rcases List.mem_map.mp hk with ⟨p, hp, hpk⟩
  have hkeep := List.of_mem_filter hp
  simp [hpk] at hkeep

theorem mapGet_mapDelete_ne {V : Type} (l : List (TxKey × V)) (k k' : TxKey)
    (h : k' ≠ k) : mapGet (mapDelete l k) k' = mapGet l k' := by
  induction l with
  | nil => rfl
  | cons p rest ih =>
      simp only [mapDelete, List.filter_cons, decide_not] at ih ⊢
      by_cases hp : p.1 = k
      · have hkk : ¬ k = k' := fun hh => h hh.symm
        simp [hp, hkk, mapGet_cons, ih]
      · simp [hp, mapGet_cons, ih]

theorem mapGet_of_mem_nodup {V : Type} {l : List (TxKey × V)} {p : TxKey × V}
    (hnd : (l.map Prod.fst).Nodup) (hmem : p ∈ l) : mapGet l p.1 = some p.2 := by
  induction l with
  | nil => simp at hmem
  | cons q rest ih =>
      simp only [List.map_cons, List.nodup_cons] at hnd
      rw [mapGet_cons]
      rcases List.mem_cons.mp hmem with h | h
      · subst h; simp
      · have hne : q.1 ≠ p.1 := by
          intro he
          exact hnd.1 (he ▸ List.mem_map_of_mem Prod.fst h)
        rw [if_neg hne]
        exact ih hnd.2 h

theorem mapSet_of_not_mem {V : Type} {l : List (TxKey × V)} {k : TxKey}
    (v : V) (h : k ∉ l.map Prod.fst) : mapSet l k v = l ++ [(k, v)] := by
  induction l with
  | nil => rfl
  | cons p rest ih =>
      simp only [List.map_cons, List.mem_cons, not_or] at h
      have hp : ¬ p.1 = k := fun he => h.1 he.symm
      simp [mapSet, hp, ih h.2]

theorem length_mapSet_of_mem {V : Type} {l : List (TxKey × V)} {k : TxKey}
    (v : V) (h : k ∈ l.map Prod.fst) : (mapSet l k v).length = l.length := by
  induction l with
  | nil => simp at h
  | cons p rest ih =>
      by_cases hp : p.1 = k
      · simp [mapSet, hp]
      · simp only [List.map_cons, List.mem_cons] at h
        rcases h with h | h
        · exact absurd h.symm hp
        · simp [mapSet, hp, ih h]

theorem mem_mapSet {V : Type} {l : List (TxKey × V)} {k : TxKey} {v : V}
    {q : TxKey × V} (h : q ∈ mapSet l k v) : q ∈ l ∨ q = (k, v) := by
  induction l with
  | nil =>
      right
      simpa [mapSet] using h
  | cons p rest ih =>
      by_cases hp : p.1 = k
      · simp only [mapSet, hp, if_true, List.mem_cons] at h
        rcases h with h | h
        · right; exact h
        · left; exact List.mem_cons_of_mem _ h
      · simp only [mapSet, hp, if_false, List.mem_cons] at h
        rcases h with h | h
        · left; exact h ▸ List.mem_cons_self p rest
        · rcases ih h with h | h
          · left; exact List.mem_cons_of_mem _ h
          · right; exact h

theorem mem_keys_mapSet {V : Type} (l : List (TxKey × V)) (k : TxKey) (v : V) :
    k ∈ (mapSet l k v).map Prod.fst := by
  have := mapGet_mapSet_self l k v
  have hs : (mapGet (mapSet l k v) k).isSome = true := by rw [this]; rfl
  exact (mapGet_isSome_iff _ _).mp hs

theorem length_mapDelete_lt {V : Type} {l : List (TxKey × V)} {k : TxKey}
    (h : k ∈ l.map Prod.fst) : (mapDelete l k).length < l.length := by
  rcases List.mem_map.mp h with ⟨p, hp, hpk⟩
  apply List.length_filter_lt_length_iff_exists.mpr
  exact ⟨p, hp, by simp [hpk]⟩

theorem length_mapDelete_of_nodup {V : Type} {l : List (TxKey × V)} {k : TxKey}
    (hnd : (l.map Prod.fst).Nodup) (h : k ∈ l.map Prod.fst) :
    (mapDelete l k).length + 1 = l.length := by
  induction l with
  | nil => simp at h
  | cons p rest ih =>
      simp only [List.map_cons, List.nodup_cons] at hnd
      simp only [List.map_cons, List.mem_cons] at h
      by_cases hp : p.1 = k
      · have hkr : k ∉ rest.map Prod.fst := hp ▸ hnd.1
        have hrest : mapDelete rest k = rest := by
          simp only [mapDelete]
          rw [List.filter_eq_self]
          intro q hq
          have hq1 : ¬ q.1 = k := fun he => hkr (he ▸ List.mem_map_of_mem Prod.fst hq)
          simpa using hq1
        simp only [mapDelete, List.filter_cons, decide_not] at hrest ⊢
        simp [hp, hrest]
      · rcases h with h | h
        · exact absurd h.symm hp
        · have hrec := ih hnd.2 h
          simp only [mapDelete, List.filter_cons, decide_not] at hrec ⊢
          simp [hp, hrec]

/-! ## Reset and the zero-capacity dedup cache -/

theorem applyLruOp_zero (op : LruOp) :
    applyLruOp (NewLRUTxCache 0) op = NewLRUTxCache 0 := by
  cases op <;>
    simp [applyLruOp, LRUTxCache.Push, LRUTxCache.Remove, LRUTxCache.Reset,
      NewLRUTxCache]

theorem applyLruOps_zero (ops : List LruOp) :
    applyLruOps (NewLRUTxCache 0) ops = NewLRUTxCache 0 := by
  induction ops with
  | nil => rfl
  | cons op rest ih =>
      simp only [applyLruOps, List.foldl_cons, applyLruOp_zero]
      exact ih

/-- C9: for each of the three structures, `Reset` yields exactly the state
of a freshly constructed instance of the same capacity, so every query
(`Has`, `Get`, `Len`) afterwards answers as on a fresh instance. -/
theorem reset_equals_fresh :
    (∀ c : LRUTxCache, c.Reset = NewLRUTxCache c.staticSize) ∧
    (∀ (c : LRUTxCache) (k : TxKey),
      (c.Reset).Has k = (NewLRUTxCache c.staticSize).Has k) ∧
    (∀ c : EvictedTxCache, c.Reset = NewEvictedTxCache c.staticSize) ∧
    (∀ (c : EvictedTxCache) (k : TxKey),
      (c.Reset).Get k = (NewEvictedTxCache c.staticSize).Get k ∧
      (c.Reset).Has k = (NewEvictedTxCache c.staticSize).Has k) ∧
    (∀ s : SeenTxSet, s.Reset = NewSeenTxSet) ∧
    (∀ (s : SeenTxSet) (k : TxKey) (p : PeerId),
      (s.Reset).Has k p = NewSeenTxSet.Has k p ∧
      (s.Reset).Get k = NewSeenTxSet.Get k ∧
      (s.Reset).Len = NewSeenTxSet.Len) :=
  ⟨fun _ => rfl, fun _ _ => rfl, fun _ => rfl, fun _ _ => ⟨rfl, rfl⟩,
   fun _ => rfl, fun _ _ _ => ⟨rfl, rfl, rfl⟩⟩

/-- C5: a dedup cache constructed with capacity 0 is disabled: after any
sequence of operations its store is still empty, `Has` answers false for
every key, and `Push` returns true while leaving the (empty) state
untouched. -/
theorem lru_capacity_zero_disabled (ops : List LruOp) (k : TxKey) :
    (applyLruOps (NewLRUTxCache 0) ops).list = [] ∧
    (applyLruOps (NewLRUTxCache 0) ops).Has k = false ∧
    ((applyLruOps (NewLRUTxCache 0) ops).Push k).2 = true ∧
    ((applyLruOps (NewLRUTxCache 0) ops).Push k).1 =
      applyLruOps (NewLRUTxCache 0) ops := by
  rw [applyLruOps_zero]
  refine ⟨rfl, ?_, ?_, ?_⟩ <;>
    simp [LRUTxCache.Has, LRUTxCache.Push, NewLRUTxCache]

/-! ## SeenTxSet: the reserved zero peer id -/

/-- Invariant: no record of the set ever holds the reserved peer id 0. -/
def noZeroPeer (s : SeenTxSet) : Prop :=
  ∀ p ∈ s.set, (0 : PeerId) ∉ p.2.peers

theorem noZeroPeer_applySeenOp {s : SeenTxSet} (h : noZeroPeer s) (op : SeenOp) :
    noZeroPeer (applySeenOp s op) := by
  cases op with
  | add k p t =>
      by_cases hp : p = 0
      · simpa [applySeenOp, SeenTxSet.Add, hp] using h
      · simp only [applySeenOp, SeenTxSet.Add, hp, if_false]
        cases hm : mapGet s.set k with
        | none =>
            intro q hq
            rcases mem_mapSet hq with hq | hq
            · exact h q hq
            · subst hq
              simpa using fun he => hp he.symm
        | some e =>
            intro q hq
            rcases mem_mapSet hq with hq | hq
            · exact h q hq
            · subst hq
              have h0 : (0 : PeerId) ∉ e.peers := h _ (mapGet_eq_some_mem hm)
              by_cases hc : p ∈ e.peers
              · simpa [hc] using h0
              · have hcb : e.peers.contains p = false := by simpa using hc
                simp only [hcb, Bool.false_eq_true, if_false]
                simp only [List.mem_append, List.mem_singleton, not_or]
                exact ⟨h0, fun he => hp he.symm⟩
  | pop k =>
      cases hm : mapGet s.set k with
      | none => simpa [applySeenOp, SeenTxSet.Pop, hm] using h
      | some e =>
          cases hpe : e.peers with
          | nil => simpa [applySeenOp, SeenTxSet.Pop, hm, hpe] using h
          | cons p0 rest =>
              simp only [applySeenOp, SeenTxSet.Pop, hm, hpe]
              intro q hq
              rcases mem_mapSet hq with hq | hq
              · exact h q hq
              · subst hq
                have h0 : (0 : PeerId) ∉ e.peers := h _ (mapGet_eq_some_mem hm)
                rw [hpe] at h0
                simp only [List.mem_cons, not_or] at h0
                simpa using h0.2
  | remove k p =>
      cases hm : mapGet s.set k with
      | none => simpa [applySeenOp, SeenTxSet.Remove, hm] using h
      | some e =>
          by_cases h1 : e.peers.length = 1
          · simp only [applySeenOp, SeenTxSet.Remove, hm, h1, if_true]
            intro q hq
            exact h q (List.mem_of_mem_filter hq)
          · simp only [applySeenOp, SeenTxSet.Remove, hm, h1, if_false]
            intro q hq
            rcases mem_mapSet hq with hq | hq
            · exact h q hq
            · subst hq
              intro h0
              exact h _ (mapGet_eq_some_mem hm) (List.mem_of_mem_filter h0)
  | removeKey k =>
      intro q hq
      simp only [applySeenOp, SeenTxSet.RemoveKey, mapDelete] at hq
      exact h q (List.mem_of_mem_filter hq)
  | prune t =>
      intro q hq
      simp only [applySeenOp, SeenTxSet.Prune] at hq
      exact h q (List.mem_of_mem_filter hq)
  | reset =>
      intro q hq
      simp [applySeenOp, SeenTxSet.Reset] at hq

theorem noZeroPeer_applySeenOps {s : SeenTxSet} (h : noZeroPeer s)
    (ops : List SeenOp) : noZeroPeer (applySeenOps s ops) := by
  induction ops generalizing s with
  | nil => exact h
  | cons op rest ih => exact ih (noZeroPeer_applySeenOp h op)

/-- C7: `Add(key, 0)` leaves the Seen-Set state literally unchanged (so
`Get` is unaffected); moreover in every state reachable from a fresh set
the reserved peer id 0 is never recorded, so `Has(key, 0)` is false. -/
theorem seen_add_zero_noop :
    (∀ (s : SeenTxSet) (k : TxKey) (now : Timestamp), s.Add k 0 now = s) ∧
    (∀ (ops : List SeenOp) (k : TxKey),
      (applySeenOps NewSeenTxSet ops).Has k 0 = false) ∧
    (∀ (ops : List SeenOp) (k : TxKey) (now : Timestamp),
      ((applySeenOps NewSeenTxSet ops).Add k 0 now).Get k =
        (applySeenOps NewSeenTxSet ops).Get k) := by
  refine ⟨fun s k now => rfl, ?_, fun ops k now => rfl⟩
  intro ops k
  have hz : noZeroPeer (applySeenOps NewSeenTxSet ops) :=
    noZeroPeer_applySeenOps (by intro q hq; simp [NewSeenTxSet] at hq) ops
  cases hm : mapGet (applySeenOps NewSeenTxSet ops).set k with
  | none => simp [SeenTxSet.Has, hm]
  | some e =>
      have h0 := hz _ (mapGet_eq_some_mem hm)
      simp only [SeenTxSet.Has, hm]
      simpa using h0

/-! ## SeenTxSet: Remove and Pop record lifecycle -/

theorem SeenTxSet.Add_absent {s : SeenTxSet} {k : TxKey} {p : PeerId}
    {t : Timestamp} (hp : p ≠ 0) (hm : mapGet s.set k = none) :
    s.Add k p t = { set := mapSet s.set k { peers := [p], time := t } } := by
  simp [SeenTxSet.Add, hp, hm]

theorem SeenTxSet.Add_present_new {s : SeenTxSet} {k : TxKey} {p : PeerId}
    {t : Timestamp} {e : timestampedPeerSet} (hp : p ≠ 0)
    (hm : mapGet s.set k = some e) (hc : p ∉ e.peers) :
    s.Add k p t =
      { set := mapSet s.set k { peers := e.peers ++ [p], time := e.time } } := by
  have hcb : e.peers.contains p = false := by simpa using hc
  simp [SeenTxSet.Add, hp, hm, hcb, hc]

theorem SeenTxSet.Remove_single {s : SeenTxSet} {k : TxKey} {p : PeerId}
    {e : timestampedPeerSet} (hm : mapGet s.set k = some e)
    (h1 : e.peers.length = 1) :
    s.Remove k p = { set := mapDelete s.set k } := by
  simp [SeenTxSet.Remove, hm, h1]

theorem SeenTxSet.Remove_many {s : SeenTxSet} {k : TxKey} {p : PeerId}
    {e : timestampedPeerSet} (hm : mapGet s.set k = some e)
    (h1 : e.peers.length ≠ 1) :
    s.Remove k p =
      { set := mapSet s.set k
          { peers := e.peers.filter (fun q => ¬ q = p), time := e.time } } := by
  simp [SeenTxSet.Remove, hm, h1]

/-- C8: `Remove` semantics: a no-op on an absent key; deleting the whole
record when the peer set is a singleton; otherwise deleting exactly the
named peer, leaving the other peers and the timestamp in place.  The
concrete two-peer scenario follows. -/
theorem seen_remove_semantics :
    (∀ (s : SeenTxSet) (k : TxKey) (p : PeerId),
        mapGet s.set k = none → s.Remove k p = s) ∧
    (∀ (s : SeenTxSet) (k : TxKey) (p : PeerId) (e : timestampedPeerSet),
        mapGet s.set k = some e → e.peers.length = 1 →
        (s.Remove k p).Get k = none) ∧
    (∀ (s : SeenTxSet) (k : TxKey) (p : PeerId) (e : timestampedPeerSet),
        mapGet s.set k = some e → e.peers.length ≠ 1 →
        (s.Remove k p).Has k p = false ∧
        (∀ q : PeerId, q ≠ p → (s.Remove k p).Has k q = s.Has k q) ∧
        mapGet (s.Remove k p).set k =
          some { peers := e.peers.filter (fun q => ¬ q = p), time := e.time }) ∧
    (∀ (s : SeenTxSet) (k : TxKey) (p1 p2 : PeerId) (t1 t2 : Timestamp),
        mapGet s.set k = none → p1 ≠ 0 → p2 ≠ 0 → p1 ≠ p2 →
        (((s.Add k p1 t1).Add k p2 t2).Remove k p1).Has k p2 = true ∧
        (((s.Add k p1 t1).Add k p2 t2).Remove k p1).Has k p1 = false ∧
        ((((s.Add k p1 t1).Add k p2 t2).Remove k p1).Remove k p2).Get k = none) := by
  refine ⟨?_, ?_, ?_, ?_⟩
  · intro s k p hm
    simp [SeenTxSet.Remove, hm]
  · intro s k p e hm h1
    rw [SeenTxSet.Remove_single hm h1]
    simp [SeenTxSet.Get, mapGet_mapDelete_self]
  · intro s k p e hm h1
    have hget : mapGet (s.Remove k p).set k =
        some { peers := e.peers.filter (fun q => ¬ q = p), time := e.time } := by
      rw [SeenTxSet.Remove_many hm h1]
      exact mapGet_mapSet_self _ _ _
    refine ⟨?_, ?_, hget⟩
    · have hnp : p ∉ e.peers.filter (fun q => ¬ q = p) := by
        intro hmem
        have := List.of_mem_filter hmem
        simp at this
      simp [SeenTxSet.Has, hget, hnp]
    · intro q hq
      have hiff : q ∈ e.peers.filter (fun q' => ¬ q' = p) ↔ q ∈ e.peers := by
        constructor
        · exact List.mem_of_mem_filter
        · intro hin
          exact List.mem_filter.mpr ⟨hin, by simpa using hq⟩
      by_cases hin : q ∈ e.peers
      · simp [SeenTxSet.Has, hget, hm, hiff.mpr hin, hin, hq]
      · simp [SeenTxSet.Has, hget, hm, hin, fun hc => hin (hiff.mp hc)]
  · intro s k p1 p2 t1 t2 hm hp1 hp2 hne
    have ha1 := SeenTxSet.Add_absent (t := t1) hp1 hm
    have hm1 : mapGet (s.Add k p1 t1).set k = some { peers := [p1], time := t1 } := by
      rw [ha1]
      exact mapGet_mapSet_self _ _ _
    have hc2 : p2 ∉ ({ peers := [p1], time := t1 } : timestampedPeerSet).peers := by
      simpa using fun he => hne he.symm
    have ha2 := SeenTxSet.Add_present_new (t := t2) hp2 hm1 hc2
    have hm2 : mapGet ((s.Add k p1 t1).Add k p2 t2).set k =
        some { peers := [p1, p2], time := t1 } := by
      rw [ha2]
      exact mapGet_mapSet_self _ _ _
    have hlen2 : ({ peers := [p1, p2], time := t1 } : timestampedPeerSet).peers.length ≠ 1 := by
      simp
    have ha3 := SeenTxSet.Remove_many (p := p1) hm2 hlen2
    have hfil : ([p1, p2] : List PeerId).filter (fun q => ¬ q = p1) = [p2] := by
      have hne1 : ¬ p2 = p1 := fun he => hne he.symm
      simp [List.filter_cons, hne1]
    have hm3 : mapGet (((s.Add k p1 t1).Add k p2 t2).Remove k p1).set k =
        some { peers := [p2], time := t1 } := by
      rw [ha3]
      have := mapGet_mapSet_self ((s.Add k p1 t1).Add k p2 t2).set k
        ({ peers := ([p1, p2] : List PeerId).filter (fun q => ¬ q = p1), time := t1 })
      rw [this, hfil]
    refine ⟨?_, ?_, ?_⟩
    · simp [SeenTxSet.Has, hm3]
    · simp [SeenTxSet.Has, hm3, hne]
    · have hlen1 : ({ peers := [p2], time := t1 } : timestampedPeerSet).peers.length = 1 := by
        simp
      rw [SeenTxSet.Remove_single hm3 hlen1]
      simp [SeenTxSet.Get, mapGet_mapDelete_self]

/-- C8 witness: the Remove semantics applied at a concrete state: key 7,
peers 1 and 2 added at times 0 and 5. -/
theorem seen_remove_semantics_witness :
    ((NewSeenTxSet.Remove 7 1 = NewSeenTxSet) ∧
     ((((NewSeenTxSet.Add 7 1 0).Add 7 2 5).Remove 7 1).Has 7 2 = true ∧
      (((NewSeenTxSet.Add 7 1 0).Add 7 2 5).Remove 7 1).Has 7 1 = false ∧
      ((((NewSeenTxSet.Add 7 1 0).Add 7 2 5).Remove 7 1).Remove 7 2).Get 7 = none)) :=
  ⟨seen_remove_semantics.1 NewSeenTxSet 7 1 (by decide),
   seen_remove_semantics.2.2.2 NewSeenTxSet 7 1 2 0 5 (by decide) (by decide)
     (by decide) (by decide)⟩

/-- C3 counterexample: with one record for key 0 whose only announcing peer
is 1, `Pop` removes that last remaining peer (it returns 1 and the stored
peer set becomes empty) yet the record still exists: `Len` still counts the
key and `Get` still returns a (now empty) peer set rather than absent. -/
theorem seen_pop_keeps_empty_record_counterexample :
    (NewSeenTxSet.Add 0 1 0).Get 0 = some [1] ∧
    ((NewSeenTxSet.Add 0 1 0).Pop 0).2 = 1 ∧
    ((NewSeenTxSet.Add 0 1 0).Pop 0).1.Len = 1 ∧
    ((NewSeenTxSet.Add 0 1 0).Pop 0).1.Get 0 = some [] := by decide

/-- C3 amended: a Seen Record is destroyed when its peer set empties via
`Remove` (removing the last remaining peer deletes the record, so `Get`
answers absent and `Len` drops by one), but not via `Pop`: `Pop` never
deletes a record — `Len` is unchanged by any `Pop`, and popping from a
record with peers `p :: rest` returns `p` and leaves the record present
with peer set `rest` (possibly empty). -/
theorem seen_record_destroyed_only_by_remove :
    (∀ (s : SeenTxSet) (k : TxKey) (p : PeerId) (e : timestampedPeerSet),
        (s.set.map Prod.fst).Nodup →
        mapGet s.set k = some e → e.peers.length = 1 →
        (s.Remove k p).Get k = none ∧ (s.Remove k p).Len + 1 = s.Len) ∧
    (∀ (s : SeenTxSet) (k : TxKey), ((s.Pop k).1).Len = s.Len) ∧
    (∀ (s : SeenTxSet) (k : TxKey) (e : timestampedPeerSet) (p : PeerId)
        (rest : List PeerId),
        mapGet s.set k = some e → e.peers = p :: rest →
        ((s.Pop k).1).Get k = some rest ∧ (s.Pop k).2 = p) := by
  refine ⟨?_, ?_, ?_⟩
  · intro s k p e hnd hm h1
    have hkeys : k ∈ s.set.map Prod.fst :=
      List.mem_map_of_mem Prod.fst (mapGet_eq_some_mem hm)
    rw [SeenTxSet.Remove_single hm h1]
    constructor
    · simp [SeenTxSet.Get, mapGet_mapDelete_self]
    · exact length_mapDelete_of_nodup hnd hkeys
  · intro s k
    cases hm : mapGet s.set k with
    | none => simp [SeenTxSet.Pop, hm]
    | some e =>
        cases hpe : e.peers with
        | nil => simp [SeenTxSet.Pop, hm, hpe]
        | cons p0 rest =>
            have hkeys : k ∈ s.set.map Prod.fst :=
              List.mem_map_of_mem Prod.fst (mapGet_eq_some_mem hm)
            simp only [SeenTxSet.Pop, hm, hpe, SeenTxSet.Len]
            exact length_mapSet_of_mem _ hkeys
  · intro s k e p rest hm hpe
    constructor
    · simp [SeenTxSet.Pop, hm, hpe, SeenTxSet.Get, mapGet_mapSet_self]
    · simp [SeenTxSet.Pop, hm, hpe]

/-- C3 amended witness: concrete instances — removing the only peer of key
3 destroys the record, popping the only peer of key 0 does not. -/
theorem seen_record_destroyed_only_by_remove_witness :
    (((NewSeenTxSet.Add 3 2 0).Remove 3 2).Get 3 = none ∧
     ((NewSeenTxSet.Add 3 2 0).Remove 3 2).Len + 1 = (NewSeenTxSet.Add 3 2 0).Len) ∧
    (((NewSeenTxSet.Add 0 1 0).Pop 0).1.Get 0 = some [] ∧
     ((NewSeenTxSet.Add 0 1 0).Pop 0).2 = 1) :=
  ⟨seen_record_destroyed_only_by_remove.1 (NewSeenTxSet.Add 3 2 0) 3 2
      { peers := [2], time := 0 } (by decide) (by decide) (by decide),
   seen_record_destroyed_only_by_remove.2.2 (NewSeenTxSet.Add 0 1 0) 0
      { peers := [1], time := 0 } 1 [] (by decide) (by decide)⟩

/-! ## EvictedTxCache: replacement and pruning -/

/-- C10: pushing a transaction whose key is already recorded overwrites
that record in place (fresh timestamp and metadata from the new call),
keeps the number of records unchanged, leaves every other record
untouched, and — provided the size was within capacity — triggers no
capacity removal. -/
theorem evicted_push_existing_replaces (c : EvictedTxCache) (wtx : wrappedTx)
    (now : Timestamp) (old : EvictedTxInfo)
    (hget : mapGet c.cache wtx.key = some old)
    (hlen : (c.cache.length : Int) ≤ c.staticSize) :
    (c.Push wtx now).cache.length = c.cache.length ∧
    (c.Push wtx now).Get wtx.key = some (wrappedInfo wtx now) ∧
    (∀ k : TxKey, k ≠ wtx.key → (c.Push wtx now).Get k = c.Get k) := by
  have hkeys : wtx.key ∈ c.cache.map Prod.fst :=
    List.mem_map_of_mem Prod.fst (mapGet_eq_some_mem hget)
  have hlen1 : (mapSet c.cache wtx.key (wrappedInfo wtx now)).length =
      c.cache.length := length_mapSet_of_mem _ hkeys
  have hpush : c.Push wtx now =
      { c with cache := mapSet c.cache wtx.key (wrappedInfo wtx now) } := by
    simp only [EvictedTxCache.Push]
    rw [if_neg]
    rw [hlen1]
    omega
  rw [hpush]
  exact ⟨hlen1, mapGet_mapSet_self _ _ _, fun k hk => mapGet_mapSet_ne _ _ _ _ hk⟩

/-- C10 witness: overwrite the record of key 1 in a two-record cache. -/
theorem evicted_push_existing_replaces_witness :
    (({ staticSize := 5,
        cache := [(1, ⟨10, 0, 0, "a", 1⟩), (2, ⟨20, 0, 0, "b", 1⟩)] } :
          EvictedTxCache).Push ⟨1, 7, 8, "c", 9⟩ 30).cache.length =
      ([(1, (⟨10, 0, 0, "a", 1⟩ : EvictedTxInfo)),
        (2, ⟨20, 0, 0, "b", 1⟩)] : List (TxKey × EvictedTxInfo)).length ∧
    (({ staticSize := 5,
        cache := [(1, ⟨10, 0, 0, "a", 1⟩), (2, ⟨20, 0, 0, "b", 1⟩)] } :
          EvictedTxCache).Push ⟨1, 7, 8, "c", 9⟩ 30).Get 1 =
      some (wrappedInfo ⟨1, 7, 8, "c", 9⟩ 30) :=
  have h := evicted_push_existing_replaces
    { staticSize := 5, cache := [(1, ⟨10, 0, 0, "a", 1⟩), (2, ⟨20, 0, 0, "b", 1⟩)] }
    ⟨1, 7, 8, "c", 9⟩ 30 ⟨10, 0, 0, "a", 1⟩ (by decide) (by decide)
  ⟨h.1, h.2.1⟩

theorem mapGet_filter_time (l : List (TxKey × EvictedTxInfo)) (limit : Timestamp)
    (hnd : (l.map Prod.fst).Nodup) (k : TxKey) :
    mapGet (l.filter (fun p => ¬ p.2.timeEvicted < limit)) k =
      (match mapGet l k with
       | none => none
       | some i => if i.timeEvicted < limit then none else some i) := by
  cases hm : mapGet l k with
  | none =>
      show mapGet (l.filter (fun p => ¬ p.2.timeEvicted < limit)) k = none
      rw [mapGet_eq_none_iff] at hm ⊢
      intro hcon
      rcases List.mem_map.mp hcon with ⟨q, hq, hqk⟩
      exact hm (hqk ▸ List.mem_map_of_mem Prod.fst (List.mem_of_mem_filter hq))
  | some i =>
      show mapGet (l.filter (fun p => ¬ p.2.timeEvicted < limit)) k =
        if i.timeEvicted < limit then none else some i
      by_cases ht : i.timeEvicted < limit
      · rw [if_pos ht, mapGet_eq_none_iff]
        intro hcon
        rcases List.mem_map.mp hcon with ⟨q, hq, hqk⟩
        have hqget : mapGet l q.1 = some q.2 :=
          mapGet_of_mem_nodup hnd (List.mem_of_mem_filter hq)
        rw [hqk, hm] at hqget
        have hq2 : q.2 = i := by simpa using hqget.symm
        have hpred := List.of_mem_filter hq
        rw [hq2] at hpred
        simp [ht] at hpred
      · rw [if_neg ht]
        have hmemf : (k, i) ∈ l.filter (fun p => ¬ p.2.timeEvicted < limit) :=
          List.mem_filter.mpr ⟨mapGet_eq_some_mem hm, by simpa using ht⟩
        have hndf : ((l.filter (fun p => ¬ p.2.timeEvicted < limit)).map
            Prod.fst).Nodup :=
          List.Nodup.sublist (List.Sublist.map Prod.fst (List.filter_sublist l)) hnd
        exact mapGet_of_mem_nodup hndf hmemf

/-- C6: `Prune(t)` removes exactly the records whose eviction timestamp is
strictly before `t`: afterwards a key answers absent iff its record was
evicted before `t`, and records with timestamp ≥ t are returned
unchanged. -/
theorem evicted_prune_exact (c : EvictedTxCache) (limit : Timestamp)
    (hnd : (c.cache.map Prod.fst).Nodup) (k : TxKey) :
    (c.Prune limit).Get k =
      (match c.Get k with
       | none => none
       | some i => if i.timeEvicted < limit then none else some i) :=
  mapGet_filter_time c.cache limit hnd k

/-- C6 witness: pruning at time 15 removes the record evicted at 10 and
keeps the record evicted at 20. -/
theorem evicted_prune_exact_witness :
    (({ staticSize := 5,
        cache := [(1, ⟨10, 0, 0, "a", 1⟩), (2, ⟨20, 0, 0, "b", 1⟩)] } :
          EvictedTxCache).Prune 15).Get 1 = none ∧
    (({ staticSize := 5,
        cache := [(1, ⟨10, 0, 0, "a", 1⟩), (2, ⟨20, 0, 0, "b", 1⟩)] } :
          EvictedTxCache).Prune 15).Get 2 = some ⟨20, 0, 0, "b", 1⟩ :=
  ⟨(evicted_prune_exact
      { staticSize := 5, cache := [(1, ⟨10, 0, 0, "a", 1⟩), (2, ⟨20, 0, 0, "b", 1⟩)] }
      15 (by decide) 1).trans (by decide),
   (evicted_prune_exact
      { staticSize := 5, cache := [(1, ⟨10, 0, 0, "a", 1⟩), (2, ⟨20, 0, 0, "b", 1⟩)] }
      15 (by decide) 2).trans (by decide)⟩

/-! ## LRUTxCache: eviction order -/

theorem LRUTxCache.Push_mem {c : LRUTxCache} {k : TxKey}
    (h0 : c.staticSize ≠ 0) (hmem : k ∈ c.list) :
    c.Push k = ({ c with list := (c.list.erase k) ++ [k] }, false) := by
  simp [LRUTxCache.Push, h0, hmem]

theorem LRUTxCache.Push_fresh_room {c : LRUTxCache} {k : TxKey}
    (h0 : c.staticSize ≠ 0) (hmem : k ∉ c.list)
    (hlen : ¬ (c.list.length : Int) ≥ c.staticSize) :
    c.Push k = ({ c with list := c.list ++ [k] }, true) := by
  simp [LRUTxCache.Push, h0, hmem, hlen]

theorem LRUTxCache.Push_fresh_full {c : LRUTxCache} {k : TxKey}
    (h0 : c.staticSize ≠ 0) (hmem : k ∉ c.list)
    (hlen : (c.list.length : Int) ≥ c.staticSize) :
    c.Push k = ({ c with list := c.list.drop 1 ++ [k] }, true) := by
  simp [LRUTxCache.Push, h0, hmem, hlen]

theorem pushKeys_append (c : LRUTxCache) (xs ys : List TxKey) :
    pushKeys c (xs ++ ys) = pushKeys (pushKeys c xs) ys := by
  simp [pushKeys, List.foldl_append]

/-- Filling an LRU cache with fresh distinct keys while within capacity
appends them in order at the most-recently-used end. -/
theorem pushKeys_fresh (ks : List TxKey) (c : LRUTxCache)
    (hnd : (c.list ++ ks).Nodup)
    (hlen : (c.list.length + ks.length : Int) ≤ c.staticSize) :
    pushKeys c ks = { c with list := c.list ++ ks } := by
  induction ks generalizing c with
  | nil => simp [pushKeys]
  | cons k ks ih =>
      rcases List.nodup_append.mp hnd with ⟨hnd1, hnd2, hdisj⟩
      have h0 : c.staticSize ≠ 0 := by
        intro h
        rw [h] at hlen
        simp only [List.length_cons] at hlen
        push_cast at hlen
        omega
      have hmem : k ∉ c.list := fun hk => hdisj hk (List.mem_cons_self _ _)
      have hroom : ¬ (c.list.length : Int) ≥ c.staticSize := by
        simp only [List.length_cons] at hlen
        push_cast at hlen ⊢
        omega
      simp only [pushKeys, List.foldl_cons, LRUTxCache.Push_fresh_room h0 hmem hroom]
      have hres := ih { c with list := c.list ++ [k] }
        (by simpa [List.append_assoc] using hnd)
        (by
          simp only [List.length_append, List.length_singleton, List.length_cons,
            List.length_nil] at hlen ⊢
          push_cast at hlen ⊢
          omega)
      simp only [pushKeys] at hres
      rw [hres]
      simp [List.append_assoc]

/-- C1: with capacity `n > 0`, pushing `n+1` distinct keys `k :: rest`
(`rest` of length n) evicts exactly the first key: `Has` is false on the
first key and true on each of the other n keys. -/
theorem lru_eviction_order (n : Nat) (k : TxKey) (rest : List TxKey)
    (hnd : (k :: rest).Nodup) (hlen : rest.length = n) (hn : 0 < n) :
    (pushKeys (NewLRUTxCache (n : Int)) (k :: rest)).Has k = false ∧
    (∀ k' ∈ rest, (pushKeys (NewLRUTxCache (n : Int)) (k :: rest)).Has k' = true) := by
  have hne : rest ≠ [] := by
    intro h
    rw [h] at hlen
    simp at hlen
    omega
  have hpos : 0 < rest.length := List.length_pos.mpr hne
  have hsplit : rest.dropLast ++ [rest.getLast hne] = rest :=
    List.dropLast_append_getLast hne
  have hlen1 : (k :: rest.dropLast).length = n := by
    simp only [List.length_cons, List.length_dropLast]
    omega
  have hdecomp : k :: rest = (k :: rest.dropLast) ++ [rest.getLast hne] := by
    rw [List.cons_append, hsplit]
  rw [hdecomp, pushKeys_append]
  have hsub : (k :: rest.dropLast).Sublist (k :: rest) :=
    List.Sublist.cons₂ k (List.dropLast_sublist rest)
  have hfill := pushKeys_fresh (k :: rest.dropLast) (NewLRUTxCache (n : Int))
    (by simpa [NewLRUTxCache] using hnd.sublist hsub)
    (by simp [NewLRUTxCache, hlen1])
  have hc1 : ({ NewLRUTxCache (n : Int) with
      list := (NewLRUTxCache (n : Int)).list ++ (k :: rest.dropLast) } : LRUTxCache) =
      { staticSize := (n : Int), list := k :: rest.dropLast } := by
    simp [NewLRUTxCache]
  rw [hfill, hc1]
  have h0 : ((n : Nat) : Int) ≠ 0 := by
    omega
  have hndrest : rest.Nodup := (List.nodup_cons.mp hnd).2
  have hknotin : k ∉ rest := (List.nodup_cons.mp hnd).1
  have hlastrest : rest.getLast hne ∈ rest := List.getLast_mem hne
  have hlastmem : rest.getLast hne ∉ k :: rest.dropLast := by
    intro hc
    rcases List.mem_cons.mp hc with hc | hc
    · exact hknotin (hc ▸ hlastrest)
    · rw [← hsplit] at hndrest
      rcases List.nodup_append.mp hndrest with ⟨_, _, hdisj⟩
      exact hdisj hc (List.mem_singleton.mpr rfl)
  have hfull : ((({ staticSize := (n : Int), list := k :: rest.dropLast } :
      LRUTxCache).list.length : Int)) ≥
      ({ staticSize := (n : Int), list := k :: rest.dropLast } :
        LRUTxCache).staticSize := by
    simp [hlen1]
  have hpush := LRUTxCache.Push_fresh_full
    (c := { staticSize := (n : Int), list := k :: rest.dropLast })
    (k := rest.getLast hne) h0 hlastmem hfull
  simp only [pushKeys, List.foldl_cons, List.foldl_nil, hpush]
  have hk1 : k ∉ rest.dropLast := by
    intro hc
    apply hknotin
    rw [← hsplit]
    exact List.mem_append.mpr (Or.inl hc)
  have hk2 : ¬ k = rest.getLast hne := fun hc => hknotin (hc ▸ hlastrest)
  constructor
  · simp [LRUTxCache.Has, h0, hk1, hk2]
  · intro k' hk'
    rw [← hsplit] at hk'
    rcases List.mem_append.mp hk' with h | h
    · simp [LRUTxCache.Has, h0, h]
    · simp [LRUTxCache.Has, h0, List.mem_singleton.mp h]

/-- C1 witness: capacity 1, keys 0 then 1 — key 0 is evicted, key 1 kept. -/
theorem lru_eviction_order_witness :
    (pushKeys (NewLRUTxCache 1) [0, 1]).Has 0 = false ∧
    (pushKeys (NewLRUTxCache 1) [0, 1]).Has 1 = true :=
  ⟨(lru_eviction_order 1 0 [1] (by decide) (by decide) (by decide)).1,
   (lru_eviction_order 1 0 [1] (by decide) (by decide) (by decide)).2 1
     (by decide)⟩

/-- C4: pushing an already-present key (capacity nonzero) returns false,
keeps the size unchanged and moves that key to the most-recently-used end;
consequently after filling a capacity-n cache with `k1 :: k2 :: rest2`,
re-pushing `k1` and then pushing a fresh key evicts `k2`, not `k1`. -/
theorem lru_repush_moves_to_back :
    (∀ (c : LRUTxCache) (k : TxKey), c.staticSize ≠ 0 → k ∈ c.list →
      (c.Push k).2 = false ∧ (c.Push k).1.list.length = c.list.length ∧
      (c.Push k).1.list.getLast? = some k) ∧
    (∀ (n : Nat) (k1 k2 : TxKey) (rest2 : List TxKey) (knew : TxKey),
      (k1 :: k2 :: rest2).Nodup → knew ∉ k1 :: k2 :: rest2 →
      rest2.length + 2 = n →
      (((pushKeys (NewLRUTxCache (n : Int)) (k1 :: k2 :: rest2)).Push k1).1.Push
          knew).1.Has k2 = false ∧
      (((pushKeys (NewLRUTxCache (n : Int)) (k1 :: k2 :: rest2)).Push k1).1.Push
          knew).1.Has k1 = true) := by
  constructor
  · intro c k h0 hmem
    rw [LRUTxCache.Push_mem h0 hmem]
    refine ⟨rfl, ?_, ?_⟩
    · have hpos : 0 < c.list.length := List.length_pos.mpr (List.ne_nil_of_mem hmem)
      simp only [List.length_append, List.length_singleton,
        List.length_erase_of_mem hmem]
      omega
    · simp
  · intro n k1 k2 rest2 knew hnd hknew hn
    have h0 : ((n : Nat) : Int) ≠ 0 := by omega
    rcases List.nodup_cons.mp hnd with ⟨hk1, hnd2⟩
    rcases List.nodup_cons.mp hnd2 with ⟨hk2r, _⟩
    have h12 : ¬ k1 = k2 := fun h => hk1 (h ▸ List.mem_cons_self _ _)
    have hfill := pushKeys_fresh (k1 :: k2 :: rest2) (NewLRUTxCache (n : Int))
      (by simpa [NewLRUTxCache] using hnd)
      (by
        simp only [NewLRUTxCache, List.length_nil, List.length_cons]
        push_cast
        omega)
    have hc1 : ({ NewLRUTxCache (n : Int) with
        list := (NewLRUTxCache (n : Int)).list ++ (k1 :: k2 :: rest2) } : LRUTxCache) =
        { staticSize := (n : Int), list := k1 :: k2 :: rest2 } := by
      simp [NewLRUTxCache]
    rw [hfill, hc1]
    have hmem1 : k1 ∈ (k1 :: k2 :: rest2) := List.mem_cons_self _ _
    have hpush1 := LRUTxCache.Push_mem
      (c := { staticSize := (n : Int), list := k1 :: k2 :: rest2 })
      (k := k1) h0 hmem1
    have herase : (k1 :: k2 :: rest2).erase k1 = k2 :: rest2 :=
      List.erase_cons_head k1 (k2 :: rest2)
    rw [herase] at hpush1
    simp only [hpush1]
    have hmem2 : knew ∉ (k2 :: rest2) ++ [k1] := by
      intro hc
      apply hknew
      rcases List.mem_append.mp hc with h | h
      · exact List.mem_cons_of_mem _ h
      · simp [List.mem_singleton.mp h]
    have hfull2 : ((((k2 :: rest2) ++ [k1]).length : Int)) ≥ (n : Int) := by
      simp only [List.length_append, List.length_singleton, List.length_cons]
      push_cast
      omega
    have hpush2 := LRUTxCache.Push_fresh_full
      (c := { staticSize := (n : Int), list := (k2 :: rest2) ++ [k1] })
      (k := knew) h0 hmem2 hfull2
    simp only [hpush2]
    have hdrop : List.drop 1 ((k2 :: rest2) ++ [k1]) = rest2 ++ [k1] := by
      simp
    have hne21 : ¬ k2 = k1 := fun h => h12 h.symm
    have hne2new : ¬ k2 = knew := fun h =>
      hknew (h ▸ List.mem_cons_of_mem _ (List.mem_cons_self _ _))
    constructor
    · simp [LRUTxCache.Has, h0, hdrop, hk2r, hne21, hne2new]
    · simp [LRUTxCache.Has, h0, hdrop]

/-- C4 witness: general part at the cache with capacity 2 holding keys
5 then 7; scenario at capacity 2 with keys 0, 1 and new key 2. -/
theorem lru_repush_moves_to_back_witness :
    ((((⟨2, [5, 7]⟩ : LRUTxCache).Push 5).2 = false ∧
      ((⟨2, [5, 7]⟩ : LRUTxCache).Push 5).1.list.length =
        (⟨2, [5, 7]⟩ : LRUTxCache).list.length ∧
      ((⟨2, [5, 7]⟩ : LRUTxCache).Push 5).1.list.getLast? = some 5) ∧
     ((((pushKeys (NewLRUTxCache 2) [0, 1]).Push 0).1.Push 2).1.Has 1 = false ∧
      (((pushKeys (NewLRUTxCache 2) [0, 1]).Push 0).1.Push 2).1.Has 0 = true)) :=
  ⟨lru_repush_moves_to_back.1 ⟨2, [5, 7]⟩ 5 (by decide) (by decide),
   lru_repush_moves_to_back.2 2 0 1 [] 2 (by decide) (by decide) (by decide)⟩

/-! ## EvictedTxCache: capacity enforcement and oldest-record removal -/

theorem mapGet_append_left {V : Type} {l1 : List (TxKey × V)} (l2 : List (TxKey × V))
    {k : TxKey} (h : k ∈ l1.map Prod.fst) :
    mapGet (l1 ++ l2) k = mapGet l1 k := by
  induction l1 with
  | nil => simp at h
  | cons p rest ih =>
      rw [List.cons_append, mapGet_cons, mapGet_cons]
      by_cases hp : p.1 = k
      · simp [hp]
      · simp only [hp, if_false]
        apply ih
        simp only [List.map_cons, List.mem_cons] at h
        rcases h with h | h
        · exact absurd h.symm hp
        · exact h

theorem mapGet_append_right {V : Type} {l1 : List (TxKey × V)} (l2 : List (TxKey × V))
    {k : TxKey} (h : k ∉ l1.map Prod.fst) :
    mapGet (l1 ++ l2) k = mapGet l2 k := by
  induction l1 with
  | nil => rfl
  | cons p rest ih =>
      simp only [List.map_cons, List.mem_cons, not_or] at h
      rw [List.cons_append, mapGet_cons]
      have hp : ¬ p.1 = k := fun he => h.1 he.symm
      simp only [hp, if_false]
      exact ih h.2

theorem length_mapSet_le {V : Type} (l : List (TxKey × V)) (k : TxKey) (v : V) :
    (mapSet l k v).length ≤ l.length + 1 := by
  induction l with
  | nil => simp [mapSet]
  | cons p rest ih =>
      by_cases hp : p.1 = k
      · simp [mapSet, hp]
      · simp only [mapSet, hp, if_false, List.length_cons]
        omega

theorem mapDelete_not_mem {V : Type} {l : List (TxKey × V)} {k : TxKey}
    (h : k ∉ l.map Prod.fst) : mapDelete l k = l := by
  simp only [mapDelete]
  rw [List.filter_eq_self]
  intro q hq
  have hq1 : ¬ q.1 = k := fun he => h (he ▸ List.mem_map_of_mem Prod.fst hq)
  simpa using hq1

/-- If no entry was evicted strictly before the running candidate, the scan
keeps the candidate. -/
theorem oldestStep_foldl_no_update (l : List (TxKey × EvictedTxInfo))
    (acc : TxKey × Timestamp)
    (h : ∀ p ∈ l, ¬ p.2.timeEvicted < acc.2) :
    l.foldl oldestStep acc = acc := by
  induction l generalizing acc with
  | nil => rfl
  | cons p rest ih =>
      rw [List.foldl_cons]
      have hp : oldestStep acc p = acc := by
        simp [oldestStep, h p (List.mem_cons_self _ _)]
      rw [hp]
      exact ih acc (fun q hq => h q (List.mem_cons_of_mem _ hq))

/-- The key the scan returns is the initial candidate or one of the
scanned entries' keys. -/
theorem oldestStep_foldl_key_mem (l : List (TxKey × EvictedTxInfo))
    (acc : TxKey × Timestamp) :
    (l.foldl oldestStep acc).1 = acc.1 ∨
      (l.foldl oldestStep acc).1 ∈ l.map Prod.fst := by
  induction l generalizing acc with
  | nil => left; rfl
  | cons p rest ih =>
      rw [List.foldl_cons]
      rcases ih (oldestStep acc p) with h | h
      · rw [h]
        simp only [oldestStep]
        split
        · right; simp
        · left; rfl
      · right
        simp only [List.map_cons]
        exact List.mem_cons_of_mem _ h

/-- When one entry is evicted strictly earlier than every other entry and
than the initial candidate, the scan returns exactly that entry. -/
theorem oldestStep_foldl_unique_min {l : List (TxKey × EvictedTxInfo)}
    {km : TxKey} {im : EvictedTxInfo}
    (hnd : (l.map Prod.fst).Nodup) (hmem : (km, im) ∈ l)
    (hmin : ∀ p ∈ l, p.1 ≠ km → im.timeEvicted < p.2.timeEvicted)
    {a : TxKey × Timestamp} (hacc : im.timeEvicted < a.2) :
    l.foldl oldestStep a = (km, im.timeEvicted) := by
  induction l generalizing a with
  | nil => simp at hmem
  | cons p rest ih =>
      simp only [List.map_cons, List.nodup_cons] at hnd
      rw [List.foldl_cons]
      by_cases hpk : p.1 = km
      · have hpim : p = (km, im) := by
          rcases List.mem_cons.mp hmem with h | h
          · exact h.symm
          · exact absurd
              (show p.1 ∈ rest.map Prod.fst from
                hpk ▸ List.mem_map_of_mem Prod.fst h) hnd.1
        subst hpim
        have hstep : oldestStep a (km, im) = (km, im.timeEvicted) := by
          simp [oldestStep, hacc]
        rw [hstep]
        apply oldestStep_foldl_no_update
        intro q hq
        have hqk : q.1 ≠ km := by
          intro he
          have hqmem : q.1 ∈ rest.map Prod.fst := List.mem_map_of_mem Prod.fst hq
          rw [he] at hqmem
          exact hnd.1 hqmem
        have hlt := hmin q (List.mem_cons_of_mem _ hq) hqk
        show ¬ q.2.timeEvicted < im.timeEvicted
        exact lt_asymm hlt
      · have hmem1 : (km, im) ∈ rest := by
          rcases List.mem_cons.mp hmem with h | h
          · exact absurd (congrArg Prod.fst h.symm) hpk
          · exact h
        have hacc1 : im.timeEvicted < (oldestStep a p).2 := by
          simp only [oldestStep]
          split
          · exact hmin p (List.mem_cons_self _ _) hpk
          · exact hacc
        exact ih hnd.2 hmem1
          (fun q hq hqk => hmin q (List.mem_cons_of_mem _ hq) hqk) hacc1

/-- A `Push` of a fresh key into a full cache (with a unique strictly
earliest record) inserts the new record and deletes exactly the earliest
one. -/
theorem evicted_push_overflow {c : EvictedTxCache} {w : wrappedTx}
    {t : Timestamp} {km : TxKey} {im : EvictedTxInfo}
    (hnd : (c.cache.map Prod.fst).Nodup)
    (hfresh : w.key ∉ c.cache.map Prod.fst)
    (hge : (c.cache.length : Int) ≥ c.staticSize)
    (hmem : (km, im) ∈ c.cache)
    (hmin : ∀ p ∈ c.cache, p.1 ≠ km → im.timeEvicted < p.2.timeEvicted)
    (ht : im.timeEvicted < t) :
    c.Push w t =
      { c with cache := mapDelete (c.cache ++ [(w.key, wrappedInfo w t)]) km } := by
  have hset := mapSet_of_not_mem (wrappedInfo w t) hfresh
  have hgt : (((c.cache ++ [(w.key, wrappedInfo w t)]).length : Int)) >
      c.staticSize := by
    simp only [List.length_append, List.length_singleton]
    push_cast
    omega
  have hndk : ((c.cache ++ [(w.key, wrappedInfo w t)]).map Prod.fst).Nodup := by
    simp only [List.map_append, List.map_cons, List.map_nil]
    rw [List.nodup_append]
    refine ⟨hnd, List.nodup_singleton _, ?_⟩
    intro a ha hb
    rw [List.mem_singleton.mp hb] at ha
    exact hfresh ha
  have hmem1 : (km, im) ∈ c.cache ++ [(w.key, wrappedInfo w t)] :=
    List.mem_append.mpr (Or.inl hmem)
  have hmin1 : ∀ p ∈ c.cache ++ [(w.key, wrappedInfo w t)],
      p.1 ≠ km → im.timeEvicted < p.2.timeEvicted := by
    intro p hp hpk
    rcases List.mem_append.mp hp with h | h
    · exact hmin p h hpk
    · rw [List.mem_singleton.mp h]
      exact ht
  have hfold := oldestStep_foldl_unique_min hndk hmem1 hmin1
    (a := (w.key, t)) ht
  simp only [EvictedTxCache.Push, hset]
  rw [if_pos hgt, hfold]

theorem pushEvicted_append (c : EvictedTxCache)
    (xs ys : List (wrappedTx × Timestamp)) :
    pushEvicted c (xs ++ ys) = pushEvicted (pushEvicted c xs) ys := by
  simp [pushEvicted, List.foldl_append]

/-- Pushing fresh distinctly-keyed records while within capacity appends
them in order (no capacity removal fires). -/
theorem pushEvicted_fresh (es : List (wrappedTx × Timestamp)) (c : EvictedTxCache)
    (hnd : (c.cache.map Prod.fst ++ es.map (fun e => e.1.key)).Nodup)
    (hlen : (c.cache.length + es.length : Int) ≤ c.staticSize) :
    pushEvicted c es =
      { c with cache :=
          c.cache ++ es.map (fun e => (e.1.key, wrappedInfo e.1 e.2)) } := by
  induction es generalizing c with
  | nil => simp [pushEvicted]
  | cons e es ih =>
      rcases List.nodup_append.mp hnd with ⟨hnd1, hnd2, hdisj⟩
      have hfresh : e.1.key ∉ c.cache.map Prod.fst := by
        intro hk
        exact hdisj hk (by simp)
      have hset := mapSet_of_not_mem (wrappedInfo e.1 e.2) hfresh
      have hno : ¬ ((mapSet c.cache e.1.key (wrappedInfo e.1 e.2)).length : Int) >
          c.staticSize := by
        rw [hset]
        simp only [List.length_append, List.length_singleton, List.length_cons,
          List.length_nil] at hlen ⊢
        push_cast at hlen ⊢
        omega
      have hpush : c.Push e.1 e.2 =
          { c with cache := c.cache ++ [(e.1.key, wrappedInfo e.1 e.2)] } := by
        simp only [EvictedTxCache.Push]
        rw [if_neg hno, hset]
      simp only [pushEvicted, List.foldl_cons, hpush]
      have hres := ih { c with cache := c.cache ++ [(e.1.key, wrappedInfo e.1 e.2)] }
        (by
          simp only [List.map_append, List.map_cons, List.map_nil]
          simp only [List.map_cons] at hnd
          simpa [List.append_assoc] using hnd)
        (by
          simp only [List.length_append, List.length_singleton, List.length_cons,
            List.length_nil] at hlen ⊢
          push_cast at hlen ⊢
          omega)
      simp only [pushEvicted] at hres
      rw [hres]
      simp [List.append_assoc]

theorem mapDelete_cons_self {V : Type} (k : TxKey) (v : V) (l : List (TxKey × V)) :
    mapDelete ((k, v) :: l) k = mapDelete l k := by
  simp [mapDelete, List.filter_cons]

/-- The cache entry that pushing `(wtx, now)` creates. -/
def evictedEntry (x : wrappedTx × Timestamp) : TxKey × EvictedTxInfo :=
  (x.1.key, wrappedInfo x.1 x.2)

/-- C2: (1) a `Push` never leaves the eviction-history cache above its
capacity when it was within capacity before; (2) when a fresh key is
pushed into a full cache whose records have a unique strictly earliest
eviction time (earlier than the push time), exactly that earliest record
is removed and all others survive unchanged; (3) in particular, pushing
`n+1` records with distinct keys and strictly increasing eviction times
into a capacity-`n` cache leaves exactly the earliest-timed record absent
and the size equal to `n`. -/
theorem evicted_capacity_and_oldest_eviction :
    (∀ (c : EvictedTxCache) (wtx : wrappedTx) (now : Timestamp),
      (c.cache.length : Int) ≤ c.staticSize →
      ((c.Push wtx now).cache.length : Int) ≤ c.staticSize) ∧
    (∀ (c : EvictedTxCache) (wtx : wrappedTx) (now : Timestamp)
        (km : TxKey) (im : EvictedTxInfo),
      (c.cache.map Prod.fst).Nodup →
      wtx.key ∉ c.cache.map Prod.fst →
      (c.cache.length : Int) ≥ c.staticSize →
      (km, im) ∈ c.cache →
      (∀ p ∈ c.cache, p.1 ≠ km → im.timeEvicted < p.2.timeEvicted) →
      im.timeEvicted < now →
      (c.Push wtx now).Has km = false ∧
      (c.Push wtx now).Get wtx.key = some (wrappedInfo wtx now) ∧
      (∀ p ∈ c.cache, p.1 ≠ km → (c.Push wtx now).Get p.1 = some p.2)) ∧
    (∀ (n : Nat) (e : wrappedTx × Timestamp) (erest : List (wrappedTx × Timestamp)),
      ((e :: erest).map (fun x => x.1.key)).Nodup →
      ((e :: erest).map Prod.snd).Pairwise (· < ·) →
      erest.length = n →
      (pushEvicted (NewEvictedTxCache (n : Int)) (e :: erest)).Has e.1.key = false ∧
      (∀ x ∈ erest,
        (pushEvicted (NewEvictedTxCache (n : Int)) (e :: erest)).Has x.1.key = true) ∧
      (pushEvicted (NewEvictedTxCache (n : Int)) (e :: erest)).cache.length = n) := by
  have main2 : ∀ (c : EvictedTxCache) (wtx : wrappedTx) (now : Timestamp)
      (km : TxKey) (im : EvictedTxInfo),
      (c.cache.map Prod.fst).Nodup →
      wtx.key ∉ c.cache.map Prod.fst →
      (c.cache.length : Int) ≥ c.staticSize →
      (km, im) ∈ c.cache →
      (∀ p ∈ c.cache, p.1 ≠ km → im.timeEvicted < p.2.timeEvicted) →
      im.timeEvicted < now →
      (c.Push wtx now).Has km = false ∧
      (c.Push wtx now).Get wtx.key = some (wrappedInfo wtx now) ∧
      (∀ p ∈ c.cache, p.1 ≠ km → (c.Push wtx now).Get p.1 = some p.2) := by
    intro c wtx now km im hnd hfresh hge hmem hmin hnow
    rw [evicted_push_overflow hnd hfresh hge hmem hmin hnow]
    refine ⟨?_, ?_, ?_⟩
    · show (mapGet (mapDelete (c.cache ++ [(wtx.key, wrappedInfo wtx now)]) km)
          km).isSome = false
      rw [mapGet_mapDelete_self]
      rfl
    · have hne2 : wtx.key ≠ km := fun he =>
        hfresh (show wtx.key ∈ c.cache.map Prod.fst from
          he ▸ List.mem_map_of_mem Prod.fst hmem)
      show mapGet (mapDelete (c.cache ++ [(wtx.key, wrappedInfo wtx now)]) km)
          wtx.key = some (wrappedInfo wtx now)
      rw [mapGet_mapDelete_ne _ _ _ hne2, mapGet_append_right _ hfresh, mapGet_cons]
      simp
    · intro p hp hpk
      show mapGet (mapDelete (c.cache ++ [(wtx.key, wrappedInfo wtx now)]) km)
          p.1 = some p.2
      rw [mapGet_mapDelete_ne _ _ _ hpk,
        mapGet_append_left _ (List.mem_map_of_mem Prod.fst hp)]
      exact mapGet_of_mem_nodup hnd hp
  refine ⟨?_, main2, ?_⟩
  · intro c wtx now hlen
    by_cases hgt : ((mapSet c.cache wtx.key (wrappedInfo wtx now)).length : Int) >
        c.staticSize
    · have hpush : (c.Push wtx now).cache =
          mapDelete (mapSet c.cache wtx.key (wrappedInfo wtx now))
            (((mapSet c.cache wtx.key (wrappedInfo wtx now)).foldl oldestStep
              (wtx.key, now)).1) := by
        simp only [EvictedTxCache.Push]
        rw [if_pos hgt]
      rw [hpush]
      have hkey : ((mapSet c.cache wtx.key (wrappedInfo wtx now)).foldl oldestStep
          (wtx.key, now)).1 ∈
          (mapSet c.cache wtx.key (wrappedInfo wtx now)).map Prod.fst := by
        rcases oldestStep_foldl_key_mem
            (mapSet c.cache wtx.key (wrappedInfo wtx now)) (wtx.key, now) with h | h
        · rw [h]
          exact mem_keys_mapSet _ _ _
        · exact h
      have hlt := length_mapDelete_lt hkey
      have hle := length_mapSet_le c.cache wtx.key (wrappedInfo wtx now)
      omega
    · have hpush : (c.Push wtx now).cache =
          mapSet c.cache wtx.key (wrappedInfo wtx now) := by
        simp only [EvictedTxCache.Push]
        rw [if_neg hgt]
      rw [hpush]
      omega
  · intro n e erest hk ht hlen
    by_cases hne : erest = []
    · subst hne
      have hn0 : n = 0 := by simpa using hlen.symm
      subst hn0
      have hpush : pushEvicted (NewEvictedTxCache ((0 : Nat) : Int)) [e] =
          { staticSize := ((0 : Nat) : Int), cache := [] } := by
        simp only [pushEvicted, List.foldl_cons, List.foldl_nil]
        simp [EvictedTxCache.Push, NewEvictedTxCache, mapSet, oldestStep,
          mapDelete, wrappedInfo, List.filter_cons]
      refine ⟨?_, ?_, ?_⟩
      · rw [hpush]
        rfl
      · intro x hx
        simp at hx
      · rw [hpush]
        rfl
    · have hpos : 0 < erest.length := List.length_pos.mpr hne
      have hsplit : erest.dropLast ++ [erest.getLast hne] = erest :=
        List.dropLast_append_getLast hne
      have hdecomp : e :: erest = (e :: erest.dropLast) ++ [erest.getLast hne] := by
        rw [List.cons_append, hsplit]
      rw [hdecomp, pushEvicted_append]
      have hsub : (e :: erest.dropLast).Sublist (e :: erest) :=
        List.Sublist.cons₂ e (List.dropLast_sublist erest)
      have hknd : ((e :: erest.dropLast).map (fun x => x.1.key)).Nodup :=
        List.Nodup.sublist (List.Sublist.map _ hsub) hk
      have hlen1 : (e :: erest.dropLast).length = n := by
        simp only [List.length_cons, List.length_dropLast]
        omega
      have hfill := pushEvicted_fresh (e :: erest.dropLast)
        (NewEvictedTxCache (n : Int))
        (by simpa [NewEvictedTxCache] using hknd)
        (by
          simp only [NewEvictedTxCache, List.length_nil, hlen1]
          simp)
      have hfill2 : pushEvicted (NewEvictedTxCache (n : Int)) (e :: erest.dropLast) =
          { staticSize := (n : Int),
            cache := (e :: erest.dropLast).map evictedEntry } := hfill
      rw [hfill2]
      simp only [pushEvicted, List.foldl_cons, List.foldl_nil]
      have hk2 : (e.1.key :: erest.map (fun x => x.1.key)).Nodup := by
        simpa only [List.map_cons] using hk
      rcases List.nodup_cons.mp hk2 with ⟨hkhead, hktail⟩
      have hmapsplit : erest.map (fun x => x.1.key) =
          erest.dropLast.map (fun x => x.1.key) ++ [(erest.getLast hne).1.key] := by
        conv_lhs => rw [← hsplit]
        simp
      have hlastin : erest.getLast hne ∈ erest := List.getLast_mem hne
      have hlastkey : (erest.getLast hne).1.key ∈ erest.map (fun x => x.1.key) :=
        List.mem_map_of_mem _ hlastin
      have hlastne : (erest.getLast hne).1.key ≠ e.1.key := by
        intro he
        rw [he] at hlastkey
        exact hkhead hlastkey
      have hlastnotdrop : (erest.getLast hne).1.key ∉
          erest.dropLast.map (fun x => x.1.key) := by
        have hnd2 : (erest.dropLast.map (fun x => x.1.key) ++
            [(erest.getLast hne).1.key]).Nodup := hmapsplit ▸ hktail
        rcases List.nodup_append.mp hnd2 with ⟨_, _, hdisjk⟩
        exact fun hc => hdisjk hc (List.mem_singleton.mpr rfl)
      have hndL : (((e :: erest.dropLast).map evictedEntry).map Prod.fst).Nodup := by
        rw [List.map_map]
        exact hknd
      have hfreshL : (erest.getLast hne).1.key ∉
          ((e :: erest.dropLast).map evictedEntry).map Prod.fst := by
        rw [List.map_map]
        intro hc
        have hc2 : (erest.getLast hne).1.key ∈
            (e :: erest.dropLast).map (fun x => x.1.key) := hc
        rw [List.map_cons] at hc2
        rcases List.mem_cons.mp hc2 with h | h
        · exact hlastne h
        · exact hlastnotdrop h
      have hgeL : ((((e :: erest.dropLast).map evictedEntry).length : Int)) ≥
          (n : Int) := by
        rw [List.length_map, hlen1]
      have hmemL : (e.1.key, wrappedInfo e.1 e.2) ∈
          (e :: erest.dropLast).map evictedEntry := by
        rw [List.map_cons]
        exact List.mem_cons_self _ _
      have htimes : ∀ t ∈ erest.map Prod.snd, e.2 < t :=
        (List.pairwise_cons.mp (by simpa using ht)).1
      have hminL : ∀ p ∈ (e :: erest.dropLast).map evictedEntry,
          p.1 ≠ e.1.key →
          (wrappedInfo e.1 e.2).timeEvicted < p.2.timeEvicted := by
        intro p hp hpk
        rcases List.mem_map.mp hp with ⟨x, hx, hpx⟩
        rcases List.mem_cons.mp hx with hx | hx
        · rw [hx] at hpx
          rw [← hpx] at hpk
          exact absurd rfl hpk
        · rw [← hpx]
          show e.2 < x.2
          exact htimes x.2
            (List.mem_map_of_mem _ ((List.dropLast_sublist erest).subset hx))
      have hnowL : (wrappedInfo e.1 e.2).timeEvicted < (erest.getLast hne).2 := by
        show e.2 < (erest.getLast hne).2
        exact htimes _ (List.mem_map_of_mem _ hlastin)
      have hov := evicted_push_overflow
        (c := { staticSize := (n : Int), cache := (e :: erest.dropLast).map evictedEntry })
        (w := (erest.getLast hne).1) (t := (erest.getLast hne).2)
        hndL hfreshL hgeL hmemL hminL hnowL
      rw [hov]
      have hkeytail : e.1.key ∉ (erest.dropLast.map evictedEntry ++
          [((erest.getLast hne).1.key,
            wrappedInfo (erest.getLast hne).1 (erest.getLast hne).2)]).map Prod.fst := by
        intro hc
        rw [List.map_append, List.map_map] at hc
        rcases List.mem_append.mp hc with h | h
        · have h2 : e.1.key ∈ erest.dropLast.map (fun x => x.1.key) := h
          apply hkhead
          rw [hmapsplit]
          exact List.mem_append.mpr (Or.inl h2)
        · have h2 : e.1.key = (erest.getLast hne).1.key := by simpa using h
          exact hlastne h2.symm
      have hdel : mapDelete ((e :: erest.dropLast).map evictedEntry ++
            [((erest.getLast hne).1.key,
              wrappedInfo (erest.getLast hne).1 (erest.getLast hne).2)]) e.1.key =
          erest.map evictedEntry := by
        rw [List.map_cons]
        rw [show (evictedEntry e :: erest.dropLast.map evictedEntry) ++
            [((erest.getLast hne).1.key,
              wrappedInfo (erest.getLast hne).1 (erest.getLast hne).2)] =
            (e.1.key, wrappedInfo e.1 e.2) :: (erest.dropLast.map evictedEntry ++
              [((erest.getLast hne).1.key,
                wrappedInfo (erest.getLast hne).1 (erest.getLast hne).2)])
          from rfl]
        rw [mapDelete_cons_self, mapDelete_not_mem hkeytail]
        conv_rhs => rw [← hsplit]
        simp [evictedEntry]
      refine ⟨?_, ?_, ?_⟩
      · show (mapGet (mapDelete ((e :: erest.dropLast).map evictedEntry ++
            [((erest.getLast hne).1.key,
              wrappedInfo (erest.getLast hne).1 (erest.getLast hne).2)]) e.1.key)
            e.1.key).isSome = false
        rw [hdel]
        have hnone : mapGet (erest.map evictedEntry) e.1.key = none := by
          rw [mapGet_eq_none_iff, List.map_map]
          exact hkhead
        rw [hnone]
        rfl
      · intro x hx
        show (mapGet (mapDelete ((e :: erest.dropLast).map evictedEntry ++
            [((erest.getLast hne).1.key,
              wrappedInfo (erest.getLast hne).1 (erest.getLast hne).2)]) e.1.key)
            x.1.key).isSome = true
        rw [hdel, mapGet_isSome_iff, List.map_map]
        exact List.mem_map_of_mem _ hx
      · show (mapDelete ((e :: erest.dropLast).map evictedEntry ++
            [((erest.getLast hne).1.key,
              wrappedInfo (erest.getLast hne).1 (erest.getLast hne).2)])
            e.1.key).length = n
        rw [hdel]
        simp [hlen]

/-- C2 witness: capacity 1; records keyed 1 and 2, evicted at times 10
then 20 — the size invariant holds on the first push, and after both
pushes record 1 (the earliest) is gone, record 2 present, size 1. -/
theorem evicted_capacity_and_oldest_eviction_witness :
    ((((NewEvictedTxCache 1).Push ⟨1, 0, 0, "a", 1⟩ 10).cache.length : Int) ≤
      (NewEvictedTxCache 1).staticSize) ∧
    (pushEvicted (NewEvictedTxCache 1)
      [(⟨1, 0, 0, "a", 1⟩, 10), (⟨2, 0, 0, "b", 1⟩, 20)]).Has 1 = false ∧
    (pushEvicted (NewEvictedTxCache 1)
      [(⟨1, 0, 0, "a", 1⟩, 10), (⟨2, 0, 0, "b", 1⟩, 20)]).Has 2 = true ∧
    (pushEvicted (NewEvictedTxCache 1)
      [(⟨1, 0, 0, "a", 1⟩, 10), (⟨2, 0, 0, "b", 1⟩, 20)]).cache.length = 1 :=
  have h3 := evicted_capacity_and_oldest_eviction.2.2 1 (⟨1, 0, 0, "a", 1⟩, 10)
    [(⟨2, 0, 0, "b", 1⟩, 20)] (by decide) (by decide) (by decide)
  ⟨evicted_capacity_and_oldest_eviction.1 (NewEvictedTxCache 1) ⟨1, 0, 0, "a", 1⟩
      10 (by decide),
   h3.1, h3.2.1 (⟨2, 0, 0, "b", 1⟩, 20) (by decide), h3.2.2⟩
